import Mathlib

/- Verification of the structural-key addressing and reconciliation engine of a
   persistent inline text editor (content script plus popup).  The DOM is
   modelled as a rose tree of element and text nodes; the JavaScript string
   primitives used by the source (trim, split, parseInt, template numerals) are
   embedded as executable functions on lists of characters. -/

namespace CachedText

/-- JS whitespace (the characters relevant to String.prototype.trim here). -/
def isWs (c : Char) : Bool :=
  c = ' ' || c = '\t' || c = '\n' || c = '\r'

/-- Embedding of JS String.prototype.trim on character lists: drop leading and
trailing whitespace. -/
def trimChars (l : List Char) : List Char :=
  ((l.dropWhile isWs).reverse.dropWhile isWs).reverse

/-- Embedding of JS String.prototype.trim. -/
def jsTrim (s : String) : String :=
  String.mk (trimChars s.data)

/-- Embedding of JS String.prototype.split with a single-character separator:
split of the empty string is the one-element list holding the empty string. -/
def splitOnChar (c : Char) : List Char → List (List Char)
  | [] => [[]]
  | x :: xs =>
    let r := splitOnChar c xs
    if x = c then [] :: r
    else
      match r with
      | [] => [[x]]
      | h :: t => (x :: h) :: t

/-- Decimal digit character for a digit value. -/
def digitChar : Nat → Char
  | 0 => '0' | 1 => '1' | 2 => '2' | 3 => '3' | 4 => '4'
  | 5 => '5' | 6 => '6' | 7 => '7' | 8 => '8' | _ => '9'

/-- Little-endian decimal digits of a natural number, with explicit fuel so
the definition is structural and computes inside the kernel. -/
def digitsRevFuel : Nat → Nat → List Char
  | 0, _ => []
  | fuel + 1, n =>
    if n < 10 then [digitChar n]
    else digitChar (n % 10) :: digitsRevFuel fuel (n / 10)

/-- Little-endian decimal digits of a natural number. -/
def natToDigitsRev (n : Nat) : List Char :=
  digitsRevFuel (n + 1) n

/-- Embedding of JS number-to-string for a nonnegative integer index
(the template literal in getKey). -/
def natRepr (n : Nat) : List Char :=
  (natToDigitsRev n).reverse

/-- Numeric value of a list of decimal digit characters, most significant
first. -/
def digitsVal (ds : List Char) : Nat :=
  ds.foldl (fun a c => a * 10 + (c.toNat - 48)) 0

/-- Parse the leading run of decimal digits; none when there is no digit
(parseInt returns NaN). -/
def parseDigitsLead (l : List Char) : Option Nat :=
  let ds := l.takeWhile Char.isDigit
  if ds.isEmpty then none else some (digitsVal ds)

/-- Embedding of JS parseInt(s, 10): skip leading whitespace, optional sign,
then the longest digit run; NaN is modelled as none. -/
def jsParseIntChars (l : List Char) : Option Int :=
  match l.dropWhile isWs with
  | [] => none
  | c :: rest =>
    if c = '-' then (parseDigitsLead rest).map (fun n => -(n : Int))
    else if c = '+' then (parseDigitsLead rest).map (fun n => (n : Int))
    else (parseDigitsLead (c :: rest)).map (fun n => (n : Int))

/-- Join key segments with the separator used by getKey
(Array.prototype.join with separator GT). -/
def joinSegs : List (List Char) → List Char
  | [] => []
  | [s] => s
  | s :: r :: t => s ++ '>' :: joinSegs (r :: t)

/-- Right trim: drop trailing whitespace. -/
def trimRight (m : List Char) : List Char :=
  (m.reverse.dropWhile isWs).reverse

/- The DOM model.  An element node carries the attributes the content script
   reads and writes: tagName, id, classList, the dataset markers editReady and
   isEditing, and the contenteditable attribute.  A document is the body
   element; element children interleave with text nodes in a child list. -/

structure ElemData where
  tag : String
  id : String
  classes : List String
  editReady : String
  isEditing : String
  contentEditable : String

/-- A fresh element: dataset markers absent (empty string models an unset
dataset property, which is falsy in JS) and not contenteditable. -/
def mkElem (tag : String) : ElemData :=
  ⟨tag, "", [], "", "", ""⟩

mutual

inductive Node where
  | text (s : String) : Node
  | elem (d : ElemData) (kids : NodeList) : Node

inductive NodeList where
  | nil : NodeList
  | cons (n : Node) (l : NodeList) : NodeList

end

/-- Build a child list from a Lean list (construction helper). -/
def nl : List Node → NodeList
  | [] => .nil
  | n :: r => .cons n (nl r)

mutual

/-- Element children of a node (the JS children collection: elements only). -/
def elemChildrenN : Node → List Node
  | .text _ => []
  | .elem _ kids => elemChildrenL kids

def elemChildrenL : NodeList → List Node
  | .nil => []
  | .cons n l =>
    match n with
    | .text _ => elemChildrenL l
    | .elem d kids => .elem d kids :: elemChildrenL l

end

mutual

/-- Concatenated character data of all descendant text nodes, in document
order (the JS textContent of a node). -/
def textCharsN : Node → List Char
  | .text s => s.data
  | .elem _ kids => textCharsL kids

def textCharsL : NodeList → List Char
  | .nil => []
  | .cons n l => textCharsN n ++ textCharsL l

end

/-- textContent as a string. -/
def textContentN (n : Node) : String :=
  String.mk (textCharsN n)

mutual

/-- Values of the text nodes in the subtree, in document order (the nodes a
TreeWalker with SHOW_TEXT visits). -/
def textNodesN : Node → List String
  | .text s => [s]
  | .elem _ kids => textNodesL kids

def textNodesL : NodeList → List String
  | .nil => []
  | .cons n l => textNodesN n ++ textNodesL l

end

mutual

/-- Whether the subtree contains any text node. -/
def hasTextN : Node → Bool
  | .text _ => true
  | .elem _ kids => hasTextL kids

def hasTextL : NodeList → Bool
  | .nil => false
  | .cons n l => hasTextN n || hasTextL l

end

mutual

/-- Overwrite the value of the first text node (in document order) of the
subtree, leaving everything else untouched; identity when the subtree holds
no text node.  This is the reconciler's single DOM write. -/
def writeFirstN (t : String) : Node → Node
  | .text _ => .text t
  | .elem d kids => .elem d (writeFirstL t kids)

def writeFirstL (t : String) : NodeList → NodeList
  | .nil => .nil
  | .cons n l =>
    if hasTextN n then .cons (writeFirstN t n) l
    else .cons n (writeFirstL t l)

end

mutual

/-- Erase all text node values, keeping the element skeleton and every
attribute.  Two documents with equal erasures have identical structure and
differ at most in text node values. -/
def eraseN : Node → Node
  | .text _ => .text ""
  | .elem d kids => .elem d (eraseL kids)

def eraseL : NodeList → NodeList
  | .nil => .nil
  | .cons n l => .cons (eraseN n) (eraseL l)

end

/-- tagName of a node (elements only; text nodes yield the empty string). -/
def tagOf : Node → String
  | .text _ => ""
  | .elem d _ => d.tag

/-- dataset.isEditing of a node. -/
def isEditingOf : Node → String
  | .text _ => ""
  | .elem d _ => d.isEditing

/-- dataset.editReady of a node. -/
def editReadyOf : Node → String
  | .text _ => ""
  | .elem d _ => d.editReady

/-- contenteditable attribute of a node. -/
def contentEditableOf : Node → String
  | .text _ => ""
  | .elem d _ => d.contentEditable

/-- Descend from a node along a path of element-children indices. -/
def subtreeAt : Node → List Nat → Option Node
  | n, [] => some n
  | n, i :: p =>
    match (elemChildrenN n)[i]? with
    | none => none
    | some c => subtreeAt c p

/-- Apply a function to the element at position i of a list, if present. -/
def listModify {α : Type} : List α → Nat → (α → α) → List α
  | [], _, _ => []
  | x :: xs, 0, g => g x :: xs
  | x :: xs, i + 1, g => x :: listModify xs i g

mutual

/-- Replace the subtree at a path of element-children indices by the image of
a function; the document is unchanged when the path does not resolve. -/
def modifyAt : Node → List Nat → (Node → Node) → Node
  | n, [], f => f n
  | n, i :: p, f =>
    match n with
    | .text s => .text s
    | .elem d kids => .elem d (modifyKidsAt kids i p f)

def modifyKidsAt : NodeList → Nat → List Nat → (Node → Node) → NodeList
  | .nil, _, _, _ => .nil
  | .cons n l, i, p, f =>
    match n with
    | .text s => .cons (.text s) (modifyKidsAt l i p f)
    | .elem d kids =>
      match i with
      | 0 => .cons (modifyAt (.elem d kids) p f) l
      | j + 1 => .cons (.elem d kids) (modifyKidsAt l j p f)

end

/- KeyCodec.  getKey encodes an element as TAG:index segments joined with a
   GT separator, walking from the element up to the body; getElementByKey
   splits the key and descends from the body by the parsed index of each
   segment. -/

/-- Index encoded in one key segment: split the segment on the colon, take the
piece at position 1 (the destructuring in the source), and parseInt it; a
missing piece is parseInt of undefined, which is NaN. -/
def segIdx (seg : List Char) : Option Int :=
  match (splitOnChar ':' seg).get? 1 with
  | none => none
  | some s => jsParseIntChars s

/-- Descent of getElementByKey over the list of key segments: at each level
parse the segment index and move to that element child; null (none) on a NaN
index or a missing child. -/
def getGo : List (List Char) → Node → Option Node
  | [], n => some n
  | seg :: rest, n =>
    match segIdx seg with
    | none => none
    | some i =>
      if i < 0 then none
      else
        match (elemChildrenN n)[i.toNat]? with
        | none => none
        | some c => getGo rest c

/-- Embedding of getElementByKey: split the key on the separator and descend
from the document body. -/
def getElementByKey (key : String) (body : Node) : Option Node :=
  getGo (splitOnChar '>' key.data) body

/-- Same descent, returning the index path instead of the element. -/
def decodeGo : List (List Char) → Node → Option (List Nat)
  | [], _ => some []
  | seg :: rest, n =>
    match segIdx seg with
    | none => none
    | some i =>
      if i < 0 then none
      else
        match (elemChildrenN n)[i.toNat]? with
        | none => none
        | some c => (decodeGo rest c).map (fun p => i.toNat :: p)

/-- The element-children index path a key resolves to in a document. -/
def decodeKeyPath (key : String) (body : Node) : Option (List Nat) :=
  decodeGo (splitOnChar '>' key.data) body

/-- Key segments getKey builds for the element at a path: for each level the
tagName of the node there, a colon, and the decimal index among the parent's
element children, in root-to-leaf order. -/
def keyForPath : Node → List Nat → Option (List (List Char))
  | _, [] => some []
  | n, i :: p =>
    match (elemChildrenN n)[i]? with
    | none => none
    | some c =>
      (keyForPath c p).map (fun segs => ((tagOf c).data ++ ':' :: natRepr i) :: segs)

/-- Embedding of getKey for the element at a path below the body: the
segments joined with the separator. -/
def getKeyOfPath (body : Node) (p : List Nat) : Option String :=
  (keyForPath body p).map (fun segs => String.mk (joinSegs segs))

/-- Indices recorded in a key, parsed segment by segment with parseInt and
independent of any document. -/
def parseKeyIndices (key : String) : Option (List Int) :=
  (splitOnChar '>' key.data).mapM segIdx

/-- Pure positional descent by a list of parsed indices: null on a negative
index or a missing element child. -/
def descendInts : Node → List Int → Option Node
  | n, [] => some n
  | n, i :: is =>
    if i < 0 then none
    else
      match (elemChildrenN n)[i.toNat]? with
      | none => none
      | some c => descendInts c is

/- Reconciler.  applyEdits walks the stored edit set in order; for each entry
   it resolves the key, skips a missing element, compares the element's
   trimmed textContent with the stored text, skips when equal or when the
   element carries the is-editing marker, and otherwise overwrites the first
   text node of the element. -/

/-- The conditional write applyEdits performs on a resolved element. -/
def condWrite (t : String) (el : Node) : Node :=
  if (jsTrim (textContentN el) != t) && (isEditingOf el != "true") then
    writeFirstN t el
  else el

/-- One entry of a reconciliation pass: resolve the key and apply the
conditional write in place; a key that does not resolve leaves the document
unchanged and the pass moves on. -/
def applyOne (d : Node) (e : String × String) : Node :=
  match decodeKeyPath e.1 d with
  | none => d
  | some p => modifyAt d p (condWrite e.2)

/-- One reconciliation pass over the stored edit set, in entry order. -/
def applyEdits (d : Node) (edits : List (String × String)) : Node :=
  edits.foldl applyOne d

/-- Whether processing one entry against a document writes to a text node:
the key resolves, the trimmed text differs, no is-editing marker, and the
element holds a text node to write to. -/
def didWrite (d : Node) (e : String × String) : Bool :=
  match getElementByKey e.1 d with
  | none => false
  | some el =>
    (jsTrim (textContentN el) != e.2) && (isEditingOf el != "true") && hasTextN el

/-- Number of text-node writes one pass performs, tracking the evolving
document. -/
def passWrites : Node → List (String × String) → Nat
  | _, [] => 0
  | d, e :: es => (if didWrite d e then 1 else 0) + passWrites (applyOne d e) es

/-- HTML tag names along a path contain neither the colon nor the separator
character (true of every real tagName; this is the stated validity side
condition). -/
def pathTagsOk : Node → List Nat → Bool
  | _, [] => true
  | n, i :: p =>
    match (elemChildrenN n)[i]? with
    | none => false
    | some c =>
      !(decide ((':' : Char) ∈ (tagOf c).data)) &&
      !(decide (('>' : Char) ∈ (tagOf c).data)) && pathTagsOk c p

/-- The reconciler's write never turns an element into anything else; this is
the shape condition under which in-place modification maps the children
collection pointwise. -/
def elemPreserving (f : Node → Node) : Prop :=
  ∀ (d : ElemData) (kids : NodeList), ∃ d2 kids2, f (.elem d kids) = Node.elem d2 kids2

/-- Two index paths address disjoint subtrees: they differ at some level
before either ends. -/
def pathsIncomparable : List Nat → List Nat → Bool
  | [], _ => false
  | _ :: _, [] => false
  | i :: p, j :: q => (i != j) || pathsIncomparable p q

/-- Value list of the text nodes after the reconciler's write: the head value
is replaced, the rest are untouched. -/
def replaceHead (t : String) : List String → List String
  | [] => []
  | _ :: xs => t :: xs

/-- The relation under which two entries of the edit set address disjoint
subtrees in a document. -/
def entriesDisjoint (d : Node) (e e2 : String × String) : Prop :=
  ∀ p p2, decodeKeyPath e.1 d = some p → decodeKeyPath e2.1 d = some p2 →
    pathsIncomparable p p2 = true

/- Editability Manager.  enableEditing selects elements matching the selector
   (a SPAN below a DIV with class _1b33), skips elements already marked
   processed (any nonempty dataset.editReady string is truthy), with no
   trimmed text, with element children, or whose id starts with "editable",
   and makes the rest contenteditable with editReady set to "true".  The
   hasPreventedClass check is vacuous on this path: it returns false whenever
   the stored capability flag is on, which the top guard has checked.  The
   setEditingState(false) branch turns every contenteditable element off and
   assigns the string "false" to its dataset.editReady. -/

/-- One element's treatment by enableEditing: under the selector and the
eligibility guards, mark processed and make editable. -/
def enableElem (u : Bool) (d : ElemData) (kids : NodeList) : ElemData :=
  if u && (d.tag == "SPAN") && (d.editReady == "")
      && !(trimChars (textCharsL kids)).isEmpty
      && (elemChildrenL kids).isEmpty
      && !(List.isPrefixOf "editable".data d.id.data) then
    { d with editReady := "true", contentEditable := "true" }
  else d

mutual

/-- enableEditing over the tree; the flag records whether some strict ancestor
is a DIV carrying class _1b33 (the descendant selector). -/
def enableN (u : Bool) : Node → Node
  | .text s => .text s
  | .elem d kids =>
    .elem (enableElem u d kids)
      (enableL (u || ((d.tag == "DIV") && d.classes.contains "_1b33")) kids)

def enableL (u : Bool) : NodeList → NodeList
  | .nil => .nil
  | .cons n l => .cons (enableN u n) (enableL u l)

end

mutual

/-- The setEditingState(false) branch: every element whose contenteditable
attribute is "true" gets contenteditable "false" and dataset.editReady set to
the string "false". -/
def disableN : Node → Node
  | .text s => .text s
  | .elem d kids =>
    .elem
      (if d.contentEditable == "true" then
        { d with contentEditable := "false", editReady := "false" }
      else d)
      (disableL kids)

def disableL : NodeList → NodeList
  | .nil => .nil
  | .cons n l => .cons (disableN n) (disableL l)

end

/-- The setEditingState message handler, after the popup has already stored
the new flag value: run the enable path when enabled, the disable branch
otherwise. -/
def setEditingStateStep (enabled : Bool) (doc : Node) : Node :=
  if enabled then enableN false doc else disableN doc

/- Navigation Watcher and boundary protocol state (content script side). -/

/-- Association list update: replace the value of a key or append it. -/
def setA {α : Type} : List (String × α) → String → α → List (String × α)
  | [], k, v => [(k, v)]
  | (k2, v2) :: r, k, v =>
    if k2 == k then (k2, v) :: r else (k2, v2) :: setA r k v

/-- Association list lookup. -/
def lookupA {α : Type} : List (String × α) → String → Option α
  | [], _ => none
  | (k2, v2) :: r, k => if k2 == k then some v2 else lookupA r k

/-- In-memory content script state: the last path the observer saw, the
current PAGE_KEY, and the per-page edited-key sets. -/
structure PageState where
  lastPath : String
  currentPageKey : String
  editedMap : List (String × List String)

/-- One callback of the path observer: when the location-derived key differs
from the last seen value, store it, switch the current PAGE_KEY and clear the
(now current) page's edited-key set; otherwise do nothing. -/
def navStep (st : PageState) (newPath : String) : PageState :=
  if newPath != st.lastPath then
    { lastPath := newPath,
      currentPageKey := newPath,
      editedMap := setA st.editedMap newPath [] }
  else st

/-- The getEditedElements handler: for every key in the current page's edited
set that still resolves, the key and the element's trimmed textContent. -/
def getEditedElementsResp (st : PageState) (doc : Node) : List (String × String) :=
  ((lookupA st.editedMap st.currentPageKey).getD []).filterMap
    (fun k => (getElementByKey k doc).map (fun el => (k, jsTrim (textContentN el))))

/-- The input listener's bookkeeping: add the element's key to the current
page's edited set. -/
def addEditedKey (st : PageState) (k : String) : PageState :=
  { st with
    editedMap := setA st.editedMap st.currentPageKey
      (k :: (lookupA st.editedMap st.currentPageKey).getD []) }

/- Popup save path.  The saveBtn handler merges the batch of
   (key, current text) pairs returned by getEditedElements over the
   previously stored edit set, keeping only entries with nonempty trimmed
   text, and stores the merged object. -/

def saveBatch (previous : List (String × String)) (batch : List (String × String)) :
    List (String × String) :=
  batch.foldl
    (fun acc kv => if jsTrim kv.2 != "" then setA acc kv.1 (jsTrim kv.2) else acc)
    previous

/- Per-keystroke persistence (saveEdit): store the element's trimmed
   textContent under its key in the page's edit set. -/

def saveEditUpd (edits : List (String × String)) (k : String) (el : Node) :
    List (String × String) :=
  setA edits k (jsTrim (textContentN el))

/- Mutation Watcher.  The observer callback embeds the reentrancy guard: a
   batch arriving while the applying flag is set returns immediately and is
   not queued; otherwise the flag is set, the pass runs, and the flag is
   cleared when the pass completes. -/

structure ObsState where
  applying : Bool
  running : Nat
  started : Nat

inductive ObsEvent where
  | batch : ObsEvent
  | passEnd : ObsEvent

/-- One event of the observer machine: a mutation batch is ignored when the
guard is set, otherwise it starts a pass and sets the guard; pass completion
clears the guard. -/
def obsStep (s : ObsState) : ObsEvent → ObsState
  | .batch =>
    if s.applying then s
    else { applying := true, running := s.running + 1, started := s.started + 1 }
  | .passEnd =>
    if s.applying then { applying := false, running := s.running - 1, started := s.started }
    else s

def obsRun (s : ObsState) (evs : List ObsEvent) : ObsState :=
  evs.foldl obsStep s

/- Concrete documents used by counterexamples and witnesses. -/

/-- A body whose only element child is a DIV with one text node. -/
def c2Doc : Node :=
  .elem (mkElem "BODY") (nl [.elem (mkElem "DIV") (nl [.text "x"])])

/-- A body whose only element child is a SPAN with one text node. -/
def c7Doc : Node :=
  .elem (mkElem "BODY") (nl [.elem (mkElem "SPAN") (nl [.text "x"])])

/-- The eligible-element scenario for the capability toggle: a SPAN with text
below a DIV carrying the selector class. -/
def c1Doc : Node :=
  .elem (mkElem "BODY")
    (nl [.elem { mkElem "DIV" with classes := ["_1b33"] }
      (nl [.elem (mkElem "SPAN") (nl [.text "Hello"])])])

/-- A SPAN holding two text nodes, so its textContent extends past the first
text node. -/
def c5Doc : Node :=
  .elem (mkElem "BODY") (nl [.elem (mkElem "SPAN") (nl [.text "Hello", .text " World"])])

def c5Es : List (String × String) := [("SPAN:0", "Hi")]

/-- A SPAN holding a single text node. -/
def w5Doc : Node :=
  .elem (mkElem "BODY") (nl [.elem (mkElem "SPAN") (nl [.text "B"])])

def w5Es : List (String × String) := [("SPAN:0", "A")]

/-- A SPAN mid-edit (dataset.isEditing is "true"). -/
def w4Doc : Node :=
  .elem (mkElem "BODY")
    (nl [.elem { mkElem "SPAN" with isEditing := "true" } (nl [.text "old"])])

/-- A body with a leading text node, then a DIV holding a SPAN. -/
def w3Doc : Node :=
  .elem (mkElem "BODY")
    (nl [.text "t", .elem (mkElem "DIV") (nl [.elem (mkElem "SPAN") (nl [.text "x"])])])

/-- A content script state with one recorded edit on page "a". -/
def w6St : PageState :=
  { lastPath := "a", currentPageKey := "a", editedMap := [("a", ["SPAN:0"])] }

/- Theorems.  Everything below proves properties of the definitions above;
   no further definitions appear. -/

/- Basic lemmas about the string primitives. -/

theorem dropWhile_dropWhile_self (p : Char → Bool) (l : List Char) :
    (l.dropWhile p).dropWhile p = l.dropWhile p := by
  induction l with
  | nil => rfl
  | cons x xs ih =>
    by_cases h : p x
    · simp [List.dropWhile, h, ih]
    · simp [List.dropWhile, h]

theorem dropWhile_head_false (p : Char → Bool) (l : List Char) (x : Char)
    (xs : List Char) (h : l.dropWhile p = x :: xs) : p x = false := by
  induction l with
  | nil => simp [List.dropWhile] at h
  | cons y ys ih =>
    by_cases hy : p y
    · simp [List.dropWhile, hy] at h
      exact ih h
    · simp [List.dropWhile, hy] at h
      rcases h with ⟨h1, _⟩
      subst h1
      simp [hy]

theorem dropWhile_eq_self_of_head (p : Char → Bool) (x : Char) (xs : List Char)
    (h : p x = false) : (x :: xs).dropWhile p = x :: xs := by
  simp [List.dropWhile, h]

theorem trimChars_eq (l : List Char) : trimChars l = trimRight (l.dropWhile isWs) := rfl

theorem trimRight_trimRight (m : List Char) :
    trimRight (trimRight m) = trimRight m := by
  simp [trimRight, dropWhile_dropWhile_self]

theorem length_dropWhile_le (p : Char → Bool) (l : List Char) :
    (l.dropWhile p).length ≤ l.length := by
  induction l with
  | nil => simp
  | cons x xs ih =>
    by_cases h : p x
    · rw [List.dropWhile_cons, if_pos h]
      exact Nat.le_trans ih (Nat.le_succ _)
    · rw [List.dropWhile_cons, if_neg (by simp [h])]

/-- trimRight keeps the absence of leading whitespace. -/
theorem dropWhile_trimRight (m : List Char) (h : m.dropWhile isWs = m) :
    (trimRight m).dropWhile isWs = trimRight m := by
  have hsplit : m = trimRight m ++ (m.reverse.takeWhile isWs).reverse := by
    unfold trimRight
    have h0 : m.reverse.takeWhile isWs ++ m.reverse.dropWhile isWs = m.reverse :=
      List.takeWhile_append_dropWhile isWs m.reverse
    have h2 := congrArg List.reverse h0
    rw [List.reverse_append, List.reverse_reverse] at h2
    exact h2.symm
  cases hT : trimRight m with
  | nil => rfl
  | cons x xs =>
    have hx : isWs x = false := by
      rw [hT] at hsplit
      rw [hsplit] at h
      by_contra hxx
      have hxt : isWs x = true := by
        revert hxx
        cases isWs x <;> simp
      rw [List.cons_append, List.dropWhile_cons, hxt] at h
      simp only [if_true] at h
      have hle := length_dropWhile_le isWs (xs ++ (m.reverse.takeWhile isWs).reverse)
      rw [h] at hle
      simp [List.length_cons] at hle
    exact dropWhile_eq_self_of_head isWs x xs hx

/-- The trimmed list is trimmed: trimming is idempotent. -/
theorem trimChars_idem (l : List Char) : trimChars (trimChars l) = trimChars l := by
  rw [trimChars_eq, trimChars_eq]
  rw [dropWhile_trimRight (l.dropWhile isWs) (dropWhile_dropWhile_self isWs l)]
  exact trimRight_trimRight _

theorem jsTrim_idem (s : String) : jsTrim (jsTrim s) = jsTrim s := by
  simp [jsTrim, trimChars_idem]

/- Lemmas about splitting and joining key strings. -/

theorem splitOnChar_not_mem (c : Char) (l : List Char) (h : c ∉ l) :
    splitOnChar c l = [l] := by
  induction l with
  | nil => rfl
  | cons x xs ih =>
    have hx : x ≠ c := fun hxc => h (hxc ▸ List.mem_cons_self x xs)
    have hxs : c ∉ xs := fun hm => h (List.mem_cons_of_mem x hm)
    rw [splitOnChar]
    simp only [if_neg hx, ih hxs]

theorem splitOnChar_ne_nil (c : Char) (l : List Char) : splitOnChar c l ≠ [] := by
  induction l with
  | nil => simp [splitOnChar]
  | cons x xs ih =>
    rw [splitOnChar]
    by_cases h : x = c
    · simp [h]
    · simp only [if_neg h]
      cases hr : splitOnChar c xs with
      | nil => exact absurd hr ih
      | cons a b => simp

theorem splitOnChar_append (c : Char) (a b : List Char) (h : c ∉ a) :
    splitOnChar c (a ++ c :: b) = a :: splitOnChar c b := by
  induction a with
  | nil =>
    rw [List.nil_append, splitOnChar]
    simp
  | cons x xs ih =>
    have hx : x ≠ c := fun hxc => h (hxc ▸ List.mem_cons_self x xs)
    have hxs : c ∉ xs := fun hm => h (List.mem_cons_of_mem x hm)
    rw [List.cons_append, splitOnChar]
    simp only [if_neg hx, ih hxs]

theorem splitOnChar_joinSegs (segs : List (List Char)) (hne : segs ≠ [])
    (h : ∀ s ∈ segs, ('>' : Char) ∉ s) :
    splitOnChar '>' (joinSegs segs) = segs := by
  induction segs with
  | nil => exact absurd rfl hne
  | cons s rest ih =>
    cases rest with
    | nil =>
      rw [joinSegs]
      exact splitOnChar_not_mem _ s (h s (List.mem_cons_self s []))
    | cons r t =>
      rw [joinSegs, splitOnChar_append _ _ _ (h s (List.mem_cons_self s _))]
      rw [ih (by simp) (fun u hu => h u (List.mem_cons_of_mem s hu))]

/- Lemmas about decimal numerals and parseInt. -/

/-- A decimal digit character is a digit, is not whitespace, and is none of
the separator or sign characters. -/
theorem digitChar_spec (d : Nat) (h : d < 10) :
    (digitChar d).isDigit = true ∧ (digitChar d).toNat = 48 + d ∧
    isWs (digitChar d) = false ∧ digitChar d ≠ ':' ∧ digitChar d ≠ '>' ∧
    digitChar d ≠ '-' ∧ digitChar d ≠ '+' := by
  interval_cases d <;> exact ⟨by decide, by decide, by decide, by decide,
    by decide, by decide, by decide⟩

theorem digitsRevFuel_mem :
    ∀ (fuel n : Nat), ∀ c ∈ digitsRevFuel fuel n, ∃ d, d < 10 ∧ c = digitChar d := by
  intro fuel
  induction fuel with
  | zero => intro n c hc; simp [digitsRevFuel] at hc
  | succ fuel ih =>
    intro n c hc
    rw [digitsRevFuel] at hc
    by_cases h : n < 10
    · rw [if_pos h] at hc
      rcases List.mem_singleton.mp hc with hc2
      exact ⟨n, h, hc2⟩
    · rw [if_neg h] at hc
      rcases List.mem_cons.mp hc with hc | hc
      · exact ⟨n % 10, Nat.mod_lt n (by omega), hc⟩
      · exact ih (n / 10) c hc

theorem natToDigitsRev_mem (n : Nat) :
    ∀ c ∈ natToDigitsRev n, ∃ d, d < 10 ∧ c = digitChar d :=
  digitsRevFuel_mem (n + 1) n

theorem natToDigitsRev_ne_nil (n : Nat) : natToDigitsRev n ≠ [] := by
  rw [natToDigitsRev, digitsRevFuel]
  by_cases h : n < 10 <;> simp [h]

theorem natRepr_mem (n : Nat) :
    ∀ c ∈ natRepr n, c.isDigit = true ∧ isWs c = false ∧ c ≠ ':' ∧ c ≠ '>' ∧
      c ≠ '-' ∧ c ≠ '+' := by
  intro c hc
  rw [natRepr, List.mem_reverse] at hc
  rcases natToDigitsRev_mem n c hc with ⟨d, hd, hcd⟩
  rcases digitChar_spec d hd with ⟨h1, _, h3, h4, h5, h6, h7⟩
  exact ⟨hcd ▸ h1, hcd ▸ h3, hcd ▸ h4, hcd ▸ h5, hcd ▸ h6, hcd ▸ h7⟩

theorem foldl_digitsRevFuel (fuel : Nat) :
    ∀ (n : Nat), n < fuel → ∀ a,
    List.foldl (fun a c => a * 10 + (c.toNat - 48)) a (digitsRevFuel fuel n).reverse
      = a * 10 ^ (digitsRevFuel fuel n).length + n := by
  induction fuel with
  | zero => intro n hn; omega
  | succ fuel ih =>
    intro n hn a
    rw [digitsRevFuel]
    by_cases h : n < 10
    · simp only [if_pos h, List.reverse_singleton, List.foldl_cons, List.foldl_nil,
        List.length_singleton]
      rcases digitChar_spec n h with ⟨_, h2, _⟩
      rw [h2]
      omega
    · have hrec : n / 10 < fuel := by
        have hlt : n / 10 < n := Nat.div_lt_self (by omega) (by omega)
        omega
      simp only [if_neg h, List.reverse_cons, List.foldl_append, List.foldl_cons,
        List.foldl_nil, List.length_cons]
      rw [ih (n / 10) hrec a]
      rcases digitChar_spec (n % 10) (Nat.mod_lt n (by omega)) with ⟨_, h2, _⟩
      rw [h2]
      have hdm := Nat.div_add_mod n 10
      have hp : 10 ^ ((digitsRevFuel fuel (n / 10)).length + 1)
          = 10 ^ (digitsRevFuel fuel (n / 10)).length * 10 := by
        rw [Nat.pow_succ]
      rw [hp]
      ring_nf
      omega

theorem digitsVal_natRepr (n : Nat) : digitsVal (natRepr n) = n := by
  rw [digitsVal, natRepr, natToDigitsRev, foldl_digitsRevFuel (n + 1) n (by omega) 0]
  simp

theorem takeWhile_eq_self_of_all (p : Char → Bool) (l : List Char)
    (h : ∀ c ∈ l, p c = true) : l.takeWhile p = l := by
  induction l with
  | nil => rfl
  | cons x xs ih =>
    rw [List.takeWhile_cons, h x (List.mem_cons_self x xs)]
    simp only [if_true]
    rw [ih (fun c hc => h c (List.mem_cons_of_mem x hc))]

theorem dropWhile_eq_self_of_all_not (p : Char → Bool) (l : List Char)
    (h : ∀ c ∈ l, p c = false) : l.dropWhile p = l := by
  cases l with
  | nil => rfl
  | cons x xs => exact dropWhile_eq_self_of_head p x xs (h x (List.mem_cons_self x xs))

theorem natRepr_ne_nil (n : Nat) : natRepr n ≠ [] := by
  rw [natRepr]
  intro h
  exact natToDigitsRev_ne_nil n (by simpa using congrArg List.reverse h)

theorem jsParseIntChars_cons (c : Char) (rest : List Char) (hws : isWs c = false) :
    jsParseIntChars (c :: rest) =
      if c = '-' then (parseDigitsLead rest).map (fun n => -(n : Int))
      else if c = '+' then (parseDigitsLead rest).map (fun n => (n : Int))
      else (parseDigitsLead (c :: rest)).map (fun n => (n : Int)) := by
  rw [jsParseIntChars, dropWhile_eq_self_of_head isWs c rest hws]

/-- parseInt inverts the decimal numeral of a natural number. -/
theorem jsParseIntChars_natRepr (n : Nat) :
    jsParseIntChars (natRepr n) = some (n : Int) := by
  cases hr : natRepr n with
  | nil => exact absurd hr (natRepr_ne_nil n)
  | cons c cs =>
    have hc := natRepr_mem n c (hr ▸ List.mem_cons_self c cs)
    rw [jsParseIntChars_cons c cs hc.2.1]
    rw [if_neg hc.2.2.2.2.1, if_neg hc.2.2.2.2.2]
    rw [parseDigitsLead]
    have htake : (c :: cs).takeWhile Char.isDigit = c :: cs := by
      apply takeWhile_eq_self_of_all
      intro x hx
      exact (natRepr_mem n x (hr ▸ hx)).1
    simp only [htake]
    rw [if_neg (by simp)]
    rw [← hr, digitsVal_natRepr n]
    simp

/- KeyCodec lemmas: segment encoding, decoding as pure positional descent,
   and the encode/decode round trip. -/

theorem segIdx_encode (tag : List Char) (i : Nat) (htag : (':' : Char) ∉ tag) :
    segIdx (tag ++ ':' :: natRepr i) = some (i : Int) := by
  rw [segIdx, splitOnChar_append ':' tag (natRepr i) htag]
  rw [splitOnChar_not_mem ':' (natRepr i)
    (fun hm => (natRepr_mem i ':' hm).2.2.1 rfl)]
  simp [jsParseIntChars_natRepr]

theorem keyForPath_no_sep :
    ∀ (p : List Nat) (body : Node) (segs : List (List Char)),
    keyForPath body p = some segs → pathTagsOk body p = true →
    ∀ s ∈ segs, ('>' : Char) ∉ s := by
  intro p
  induction p with
  | nil =>
    intro body segs hk _ s hs
    rw [keyForPath] at hk
    cases hk
    simp at hs
  | cons i p ih =>
    intro body segs hk ht s hs
    rw [keyForPath] at hk
    rw [pathTagsOk] at ht
    cases hget : (elemChildrenN body)[i]? with
    | none =>
      simp only [hget] at ht
      exact absurd ht (by decide)
    | some c =>
      simp only [hget] at hk ht
      cases hrec : keyForPath c p with
      | none =>
        simp only [hrec, Option.map_none'] at hk
        exact absurd hk (by simp)
      | some segs2 =>
        simp only [hrec, Option.map_some', Option.some.injEq] at hk
        subst hk
        simp only [Bool.and_eq_true, Bool.not_eq_true', decide_eq_false_iff_not] at ht
        rcases List.mem_cons.mp hs with hs | hs
        · subst hs
          intro hmem
          rcases List.mem_append.mp hmem with hm | hm
          · exact ht.1.2 hm
          · rcases List.mem_cons.mp hm with hm | hm
            · cases hm
            · exact (natRepr_mem i '>' hm).2.2.2.1 rfl
        · exact ih c segs2 hrec ht.2 s hs

theorem getGo_keyForPath :
    ∀ (p : List Nat) (body el : Node) (segs : List (List Char)),
    subtreeAt body p = some el → keyForPath body p = some segs →
    pathTagsOk body p = true → getGo segs body = some el := by
  intro p
  induction p with
  | nil =>
    intro body el segs hs hk _
    rw [subtreeAt] at hs
    rw [keyForPath] at hk
    cases hs
    cases hk
    rfl
  | cons i p ih =>
    intro body el segs hs hk ht
    rw [subtreeAt] at hs
    rw [keyForPath] at hk
    rw [pathTagsOk] at ht
    cases hget : (elemChildrenN body)[i]? with
    | none =>
      simp only [hget] at ht
      exact absurd ht (by decide)
    | some c =>
      simp only [hget] at hs hk ht
      cases hrec : keyForPath c p with
      | none =>
        simp only [hrec, Option.map_none'] at hk
        exact absurd hk (by simp)
      | some segs2 =>
        simp only [hrec, Option.map_some', Option.some.injEq] at hk
        subst hk
        simp only [Bool.and_eq_true, Bool.not_eq_true', decide_eq_false_iff_not] at ht
        rw [getGo]
        simp only [segIdx_encode (tagOf c).data i ht.1.1]
        rw [if_neg (by omega)]
        simp only [Int.toNat_natCast, hget]
        exact ih c el segs2 hs hrec ht.2

theorem getGo_eq_descend :
    ∀ (segs : List (List Char)) (n : Node),
    getGo segs n =
      match segs.mapM segIdx with
      | none => none
      | some is => descendInts n is := by
  intro segs
  induction segs with
  | nil => intro n; rfl
  | cons seg rest ih =>
    intro n
    rw [getGo, List.mapM_cons]
    cases hseg : segIdx seg with
    | none => simp
    | some i =>
      simp only [Option.bind_eq_bind, Option.some_bind]
      by_cases hi : i < 0
      · simp only [if_pos hi]
        cases hrest : rest.mapM segIdx with
        | none => simp
        | some is => simp [descendInts, if_pos hi]
      · simp only [if_neg hi]
        cases hget : (elemChildrenN n)[i.toNat]? with
        | none =>
          simp only [hget]
          cases hrest : rest.mapM segIdx with
          | none => simp
          | some is => simp [descendInts, if_neg hi, hget]
        | some c =>
          simp only [hget, ih c]
          cases hrest : rest.mapM segIdx with
          | none => simp
          | some is => simp [descendInts, if_neg hi, hget]

theorem getGo_eq_decodeGo :
    ∀ (segs : List (List Char)) (n : Node),
    getGo segs n = (decodeGo segs n).bind (fun p => subtreeAt n p) := by
  intro segs
  induction segs with
  | nil => intro n; rfl
  | cons seg rest ih =>
    intro n
    rw [getGo, decodeGo]
    cases hseg : segIdx seg with
    | none => rfl
    | some i =>
      simp only [if_pos, if_neg]
      by_cases hi : i < 0
      · simp only [if_pos hi]; rfl
      · simp only [if_neg hi]
        cases hget : (elemChildrenN n)[i.toNat]? with
        | none => simp only [hget]; rfl
        | some c =>
          simp only [hget, ih c]
          cases hrec : decodeGo rest c with
          | none => rfl
          | some p =>
            simp only [Option.map_some', Option.some_bind]
            rw [subtreeAt, hget]

theorem getElementByKey_eq_decodeKeyPath (key : String) (d : Node) :
    getElementByKey key d = (decodeKeyPath key d).bind (fun p => subtreeAt d p) :=
  getGo_eq_decodeGo (splitOnChar '>' key.data) d

/- Lemmas about in-place modification of the tree. -/

theorem listModify_get_self {α : Type} (i : Nat) (g : α → α) :
    ∀ (l : List α), (listModify l i g)[i]? = (l[i]?).map g := by
  induction i with
  | zero =>
    intro l
    cases l with
    | nil => rfl
    | cons x xs => simp [listModify]
  | succ j ih =>
    intro l
    cases l with
    | nil => rfl
    | cons x xs =>
      rw [listModify]
      simp only [List.getElem?_cons_succ]
      exact ih xs

theorem listModify_get_ne {α : Type} (g : α → α) :
    ∀ (l : List α) (i j : Nat), j ≠ i → (listModify l i g)[j]? = l[j]? := by
  intro l
  induction l with
  | nil => intro i j _; cases i <;> rfl
  | cons x xs ih =>
    intro i j hne
    cases i with
    | zero =>
      cases j with
      | zero => exact absurd rfl hne
      | succ j2 => rw [listModify]; simp
    | succ i2 =>
      cases j with
      | zero => rw [listModify]; simp
      | succ j2 =>
        rw [listModify]
        simp only [List.getElem?_cons_succ]
        exact ih i2 j2 (fun h => hne (by rw [h]))

theorem modifyAt_elem (f : Node → Node) (hf : elemPreserving f) (p : List Nat)
    (d : ElemData) (kids : NodeList) :
    ∃ d2 kids2, modifyAt (.elem d kids) p f = Node.elem d2 kids2 := by
  cases p with
  | nil => exact hf d kids
  | cons i q => exact ⟨d, modifyKidsAt kids i q f, by rw [modifyAt]⟩

theorem elemChildrenL_modifyKidsAt (p : List Nat) (f : Node → Node)
    (hf : elemPreserving f) :
    ∀ (kids : NodeList) (i : Nat),
    elemChildrenL (modifyKidsAt kids i p f) =
      listModify (elemChildrenL kids) i (fun c => modifyAt c p f)
  | .nil, i => by
    cases i <;> rfl
  | .cons n l, i => by
    cases n with
    | text s =>
      rw [modifyKidsAt]
      simp only [elemChildrenL]
      exact elemChildrenL_modifyKidsAt p f hf l i
    | elem d kids2 =>
      cases i with
      | zero =>
        simp only [modifyKidsAt, elemChildrenL, listModify]
        rcases modifyAt_elem f hf p d kids2 with ⟨d2, kids3, heq⟩
        rw [heq]
      | succ j =>
        rw [modifyKidsAt]
        simp only [elemChildrenL, listModify]
        rw [elemChildrenL_modifyKidsAt p f hf l j]

theorem subtreeAt_modifyAt_self (f : Node → Node) (hf : elemPreserving f) :
    ∀ (q : List Nat) (n : Node),
    subtreeAt (modifyAt n q f) q = (subtreeAt n q).map f := by
  intro q
  induction q with
  | nil => intro n; simp [modifyAt, subtreeAt]
  | cons i p ih =>
    intro n
    cases n with
    | text s => simp [modifyAt, subtreeAt, elemChildrenN]
    | elem d kids =>
      rw [modifyAt, subtreeAt, subtreeAt]
      simp only [elemChildrenN]
      rw [elemChildrenL_modifyKidsAt p f hf kids i, listModify_get_self]
      cases hget : (elemChildrenL kids)[i]? with
      | none => rfl
      | some c =>
        simp only [Option.map_some']
        exact ih c

theorem pathsIncomparable_symm :
    ∀ (p q : List Nat), pathsIncomparable p q = pathsIncomparable q p := by
  intro p
  induction p with
  | nil => intro q; cases q <;> rfl
  | cons i p ih =>
    intro q
    cases q with
    | nil => rfl
    | cons j q2 =>
      rw [pathsIncomparable, pathsIncomparable, ih q2]
      cases hij : (i != j)
      · have : (j != i) = false := by
          simp only [bne_eq_false_iff_eq] at hij
          simp [hij]
        rw [this]
      · have : (j != i) = true := by
          simp only [bne_iff_ne] at hij
          simp [bne_iff_ne]
          exact fun h => hij h.symm
        rw [this]

/-- Modification along one path leaves the subtree at any incomparable path
untouched. -/
theorem subtreeAt_modifyAt_incomp (f : Node → Node) (hf : elemPreserving f) :
    ∀ (q p : List Nat) (n : Node), pathsIncomparable q p = true →
    subtreeAt (modifyAt n q f) p = subtreeAt n p := by
  intro q
  induction q with
  | nil => intro p n h; simp [pathsIncomparable] at h
  | cons i qt ih =>
    intro p n h
    cases p with
    | nil => simp [pathsIncomparable] at h
    | cons j pt =>
      cases n with
      | text s => rw [modifyAt]
      | elem d kids =>
        rw [modifyAt, subtreeAt, subtreeAt]
        simp only [elemChildrenN]
        rw [elemChildrenL_modifyKidsAt qt f hf kids i]
        by_cases hij : j = i
        · subst hij
          rw [pathsIncomparable] at h
          simp only [bne_self_eq_false, Bool.false_or] at h
          rw [listModify_get_self]
          cases hget : (elemChildrenL kids)[j]? with
          | none => rfl
          | some c =>
            simp only [Option.map_some']
            exact ih pt c h
        · rw [listModify_get_ne _ _ _ _ hij]

theorem modifyKidsAt_eq_self (p : List Nat) (f : Node → Node) :
    ∀ (kids : NodeList) (i : Nat),
    (∀ c, (elemChildrenL kids)[i]? = some c → modifyAt c p f = c) →
    modifyKidsAt kids i p f = kids
  | .nil, i, _ => by cases i <;> rfl
  | .cons n l, i, h => by
    cases n with
    | text s =>
      rw [modifyKidsAt]
      rw [modifyKidsAt_eq_self p f l i (by
        intro c hc
        exact h c (by simpa [elemChildrenL] using hc))]
    | elem d kids2 =>
      cases i with
      | zero =>
        rw [modifyKidsAt]
        rw [h (.elem d kids2) (by simp [elemChildrenL])]
      | succ j =>
        rw [modifyKidsAt]
        rw [modifyKidsAt_eq_self p f l j (by
          intro c hc
          exact h c (by simpa [elemChildrenL] using hc))]

/-- Modification is the identity when the function fixes whatever the path
resolves to (in particular when the path does not resolve at all). -/
theorem modifyAt_eq_self (f : Node → Node) :
    ∀ (q : List Nat) (n : Node),
    (∀ el, subtreeAt n q = some el → f el = el) → modifyAt n q f = n := by
  intro q
  induction q with
  | nil =>
    intro n h
    rw [modifyAt]
    exact h n (by rw [subtreeAt])
  | cons i p ih =>
    intro n h
    cases n with
    | text s => rw [modifyAt]
    | elem d kids =>
      rw [modifyAt]
      rw [modifyKidsAt_eq_self p f kids i (by
        intro c hc
        apply ih c
        intro el hel
        apply h el
        rw [subtreeAt]
        simp only [elemChildrenN, hc]
        exact hel)]

/- Erasure lemmas: reconciliation touches only text node values, so documents
   are compared through eraseN, and key resolution only depends on the
   erasure. -/

theorem elemChildrenL_eraseL :
    ∀ (kids : NodeList), elemChildrenL (eraseL kids) = (elemChildrenL kids).map eraseN
  | .nil => rfl
  | .cons n l => by
    cases n with
    | text s =>
      simp only [eraseL, eraseN, elemChildrenL]
      exact elemChildrenL_eraseL l
    | elem d kids2 =>
      simp only [eraseL, eraseN, elemChildrenL, List.map_cons]
      rw [elemChildrenL_eraseL l]

theorem elemChildrenN_eraseN (n : Node) :
    elemChildrenN (eraseN n) = (elemChildrenN n).map eraseN := by
  cases n with
  | text s => rfl
  | elem d kids =>
    simp only [eraseN, elemChildrenN]
    exact elemChildrenL_eraseL kids

/-- Key resolution inspects only the element skeleton: it is invariant under
erasing text values. -/
theorem decodeGo_eraseN :
    ∀ (segs : List (List Char)) (n : Node),
    decodeGo segs (eraseN n) = decodeGo segs n := by
  intro segs
  induction segs with
  | nil => intro n; rfl
  | cons seg rest ih =>
    intro n
    rw [decodeGo, decodeGo]
    cases hseg : segIdx seg with
    | none => rfl
    | some i =>
      by_cases hi : i < 0
      · simp only [if_pos hi]
      · simp only [if_neg hi]
        rw [elemChildrenN_eraseN, List.getElem?_map]
        cases hget : (elemChildrenN n)[i.toNat]? with
        | none => rfl
        | some c =>
          simp only [Option.map_some']
          rw [ih c]

theorem decodeGo_congr_erase (segs : List (List Char)) (d d2 : Node)
    (h : eraseN d = eraseN d2) : decodeGo segs d = decodeGo segs d2 := by
  rw [← decodeGo_eraseN segs d, h, decodeGo_eraseN segs d2]

mutual

theorem eraseN_modifyAt (f : Node → Node) (hf : ∀ m, eraseN (f m) = eraseN m) :
    ∀ (q : List Nat) (n : Node), eraseN (modifyAt n q f) = eraseN n
  | [], n => by rw [modifyAt]; exact hf n
  | i :: p, n => by
    cases n with
    | text s => rw [modifyAt]
    | elem d kids =>
      rw [modifyAt]
      simp only [eraseN]
      rw [eraseL_modifyKidsAt f hf i p kids]
termination_by q n => (q.length, sizeOf n)

theorem eraseL_modifyKidsAt (f : Node → Node) (hf : ∀ m, eraseN (f m) = eraseN m) :
    ∀ (i : Nat) (p : List Nat) (kids : NodeList),
    eraseL (modifyKidsAt kids i p f) = eraseL kids
  | i, _, .nil => by cases i <;> rfl
  | i, p, .cons n l => by
    cases n with
    | text s =>
      rw [modifyKidsAt]
      simp only [eraseL]
      rw [eraseL_modifyKidsAt f hf i p l]
    | elem d kids2 =>
      cases i with
      | zero =>
        rw [modifyKidsAt]
        simp only [eraseL]
        rw [eraseN_modifyAt f hf p (.elem d kids2)]
      | succ j =>
        rw [modifyKidsAt]
        simp only [eraseL]
        rw [eraseL_modifyKidsAt f hf j p l]
termination_by _ p kids => (p.length + 1, sizeOf kids)

end

/- Text node lemmas: what the reconciler's write does to the text content. -/

mutual

theorem eraseN_writeFirstN (t : String) :
    ∀ (n : Node), eraseN (writeFirstN t n) = eraseN n
  | .text s => by simp [writeFirstN, eraseN]
  | .elem d kids => by
    simp only [writeFirstN, eraseN]
    rw [eraseL_writeFirstL t kids]

theorem eraseL_writeFirstL (t : String) :
    ∀ (kids : NodeList), eraseL (writeFirstL t kids) = eraseL kids
  | .nil => rfl
  | .cons n l => by
    rw [writeFirstL]
    by_cases h : hasTextN n
    · simp only [if_pos h, eraseL]
      rw [eraseN_writeFirstN t n]
    · simp only [if_neg h, eraseL]
      rw [eraseL_writeFirstL t l]

end

mutual

theorem hasTextN_iff :
    ∀ (n : Node), hasTextN n = true ↔ textNodesN n ≠ []
  | .text s => by simp [hasTextN, textNodesN]
  | .elem d kids => by
    simp only [hasTextN, textNodesN]
    exact hasTextL_iff kids

theorem hasTextL_iff :
    ∀ (kids : NodeList), hasTextL kids = true ↔ textNodesL kids ≠ []
  | .nil => by simp [hasTextL, textNodesL]
  | .cons n l => by
    simp only [hasTextL, textNodesL, Bool.or_eq_true]
    rw [hasTextN_iff n, hasTextL_iff l]
    constructor
    · intro h
      rcases h with h | h
      · intro happ
        rcases List.append_eq_nil.mp happ with ⟨h1, _⟩
        exact h h1
      · intro happ
        rcases List.append_eq_nil.mp happ with ⟨_, h2⟩
        exact h h2
    · intro h
      by_contra hc
      push_neg at hc
      rcases hc with ⟨h1, h2⟩
      exact h (by rw [h1, h2]; rfl)

end

mutual

theorem textNodesN_writeFirstN (t : String) :
    ∀ (n : Node), textNodesN (writeFirstN t n) = replaceHead t (textNodesN n)
  | .text s => by simp [writeFirstN, textNodesN, replaceHead]
  | .elem d kids => by
    simp only [writeFirstN, textNodesN]
    exact textNodesL_writeFirstL t kids

theorem textNodesL_writeFirstL (t : String) :
    ∀ (kids : NodeList), textNodesL (writeFirstL t kids) = replaceHead t (textNodesL kids)
  | .nil => rfl
  | .cons n l => by
    rw [writeFirstL]
    by_cases h : hasTextN n
    · simp only [if_pos h, textNodesL]
      rw [textNodesN_writeFirstN t n]
      have hne : textNodesN n ≠ [] := (hasTextN_iff n).mp h
      cases htn : textNodesN n with
      | nil => exact absurd htn hne
      | cons x xs => simp [replaceHead]
    · simp only [if_neg h, textNodesL]
      rw [textNodesL_writeFirstL t l]
      have hnil : textNodesN n = [] := by
        by_contra hc
        exact h ((hasTextN_iff n).mpr hc)
      rw [hnil]
      simp

end

mutual

theorem writeFirstN_eq_self (t : String) :
    ∀ (n : Node), hasTextN n = false → writeFirstN t n = n
  | .text s => by simp [hasTextN]
  | .elem d kids => by
    simp only [hasTextN, writeFirstN]
    intro h
    rw [writeFirstL_eq_self t kids h]

theorem writeFirstL_eq_self (t : String) :
    ∀ (kids : NodeList), hasTextL kids = false → writeFirstL t kids = kids
  | .nil => by simp [writeFirstL]
  | .cons n l => by
    simp only [hasTextL, Bool.or_eq_false_iff]
    intro h
    rw [writeFirstL, if_neg (by simp [h.1]), writeFirstL_eq_self t l h.2]

end

mutual

theorem textCharsN_eq_join :
    ∀ (n : Node), textCharsN n = ((textNodesN n).map String.data).flatten
  | .text s => by simp [textCharsN, textNodesN]
  | .elem d kids => by
    simp only [textCharsN, textNodesN]
    exact textCharsL_eq_join kids

theorem textCharsL_eq_join :
    ∀ (kids : NodeList), textCharsL kids = ((textNodesL kids).map String.data).flatten
  | .nil => rfl
  | .cons n l => by
    simp only [textCharsL, textNodesL, List.map_append, List.flatten_append]
    rw [textCharsN_eq_join n, textCharsL_eq_join l]

end

/- Reconciler lemmas. -/

theorem writeFirstN_elem (t : String) (d : ElemData) (kids : NodeList) :
    writeFirstN t (.elem d kids) = Node.elem d (writeFirstL t kids) := by
  rw [writeFirstN]

theorem eraseN_condWrite (t : String) (el : Node) :
    eraseN (condWrite t el) = eraseN el := by
  rw [condWrite]
  cases hc : (jsTrim (textContentN el) != t) && (isEditingOf el != "true")
  · simp
  · simp only [if_true]
    exact eraseN_writeFirstN t el

theorem condWrite_elemPreserving (t : String) : elemPreserving (condWrite t) := by
  intro d kids
  rw [condWrite]
  cases hc : (jsTrim (textContentN (.elem d kids)) != t) && (isEditingOf (.elem d kids) != "true")
  · exact ⟨d, kids, by simp⟩
  · exact ⟨d, writeFirstL t kids, by simp [writeFirstN_elem]⟩

theorem eraseN_applyOne (d : Node) (e : String × String) :
    eraseN (applyOne d e) = eraseN d := by
  rw [applyOne]
  cases hdec : decodeKeyPath e.1 d with
  | none => rfl
  | some p => exact eraseN_modifyAt (condWrite e.2) (eraseN_condWrite e.2) p d

theorem eraseN_applyEdits (es : List (String × String)) :
    ∀ (d : Node), eraseN (applyEdits d es) = eraseN d := by
  induction es with
  | nil => intro d; rfl
  | cons e es ih =>
    intro d
    rw [applyEdits, List.foldl_cons]
    rw [show List.foldl applyOne (applyOne d e) es = applyEdits (applyOne d e) es from rfl]
    rw [ih (applyOne d e), eraseN_applyOne]

/-- Key resolution is stable across a reconciliation pass: the pass changes
only text values, which resolution ignores. -/
theorem decodeKeyPath_applyEdits (k : String) (d : Node) (es : List (String × String)) :
    decodeKeyPath k (applyEdits d es) = decodeKeyPath k d :=
  decodeGo_congr_erase _ _ _ (eraseN_applyEdits es d)

theorem decodeKeyPath_applyOne (k : String) (d : Node) (e : String × String) :
    decodeKeyPath k (applyOne d e) = decodeKeyPath k d :=
  decodeGo_congr_erase _ _ _ (eraseN_applyOne d e)

/-- An entry that would not write leaves the document unchanged. -/
theorem applyOne_eq_self (d : Node) (e : String × String)
    (h : didWrite d e = false) : applyOne d e = d := by
  rw [applyOne]
  cases hdec : decodeKeyPath e.1 d with
  | none => rfl
  | some p =>
    apply modifyAt_eq_self
    intro el hel
    have hget : getElementByKey e.1 d = some el := by
      rw [getElementByKey_eq_decodeKeyPath, hdec]
      simpa using hel
    simp only [didWrite, hget] at h
    rw [condWrite]
    cases hc : (jsTrim (textContentN el) != e.2) && (isEditingOf el != "true")
    · simp
    · simp only [if_true]
      apply writeFirstN_eq_self
      rw [hc] at h
      simpa using h

theorem passWrites_eq_zero (d : Node) :
    ∀ (es : List (String × String)), (∀ e ∈ es, didWrite d e = false) →
    passWrites d es = 0 := by
  intro es
  induction es with
  | nil => intro _; rfl
  | cons e es ih =>
    intro h
    rw [passWrites]
    rw [h e (List.mem_cons_self e es)]
    rw [applyOne_eq_self d e (h e (List.mem_cons_self e es))]
    rw [ih (fun x hx => h x (List.mem_cons_of_mem e hx))]
    simp

/- Machinery for the second-pass analysis of the reconciler. -/

theorem decodeGo_some_subtree :
    ∀ (segs : List (List Char)) (n : Node) (p : List Nat),
    decodeGo segs n = some p → ∃ el, subtreeAt n p = some el := by
  intro segs
  induction segs with
  | nil =>
    intro n p h
    rw [decodeGo] at h
    cases h
    exact ⟨n, by rw [subtreeAt]⟩
  | cons seg rest ih =>
    intro n p h
    rw [decodeGo] at h
    cases hseg : segIdx seg with
    | none =>
      simp only [hseg] at h
      exact Option.noConfusion h
    | some i =>
      simp only [hseg] at h
      by_cases hi : i < 0
      · rw [if_pos hi] at h; cases h
      · rw [if_neg hi] at h
        cases hget : (elemChildrenN n)[i.toNat]? with
        | none =>
          simp only [hget] at h
          exact Option.noConfusion h
        | some c =>
          simp only [hget] at h
          cases hrec : decodeGo rest c with
          | none => rw [hrec] at h; cases h
          | some p2 =>
            rw [hrec] at h
            simp only [Option.map_some', Option.some.injEq] at h
            subst h
            rcases ih c p2 hrec with ⟨el, hel⟩
            refine ⟨el, ?_⟩
            rw [subtreeAt]
            simp only [hget]
            exact hel

/-- Entries whose resolved paths are incomparable with a fixed path leave the
subtree at that path untouched across a fold of the pass. -/
theorem subtree_foldl_preserved (d : Node) (p : List Nat) :
    ∀ (es2 : List (String × String)) (s : Node), eraseN s = eraseN d →
    (∀ e ∈ es2, ∀ q, decodeKeyPath e.1 d = some q → pathsIncomparable q p = true) →
    subtreeAt (List.foldl applyOne s es2) p = subtreeAt s p := by
  intro es2
  induction es2 with
  | nil => intro s _ _; rfl
  | cons e es2 ih =>
    intro s hs hinc
    rw [List.foldl_cons]
    rw [ih (applyOne s e) (by rw [eraseN_applyOne, hs])
      (fun x hx => hinc x (List.mem_cons_of_mem e hx))]
    rw [applyOne]
    have hdec : decodeKeyPath e.1 s = decodeKeyPath e.1 d :=
      decodeGo_congr_erase _ _ _ hs
    cases hd : decodeKeyPath e.1 d with
    | none => rw [hdec, hd]
    | some q =>
      rw [hdec, hd]
      exact subtreeAt_modifyAt_incomp (condWrite e.2) (condWrite_elemPreserving e.2)
        q p s (hinc e (List.mem_cons_self e es2) q hd)

/-- After one full pass, no entry would write again, provided stored texts are
trimmed, each resolved element holds at most one text node, and distinct
entries resolve to disjoint subtrees. -/
theorem condWrite_eq_of_false (t : String) (el : Node)
    (h : ((jsTrim (textContentN el) != t) && (isEditingOf el != "true")) = false) :
    condWrite t el = el := by
  rw [condWrite, h]
  simp

theorem condWrite_eq_of_true (t : String) (el : Node)
    (h : ((jsTrim (textContentN el) != t) && (isEditingOf el != "true")) = true) :
    condWrite t el = writeFirstN t el := by
  rw [condWrite, h]
  simp

theorem didWrite_after_pass (d : Node) (es : List (String × String))
    (h1 : ∀ e ∈ es, jsTrim e.2 = e.2)
    (h2 : ∀ e ∈ es, ∀ el, getElementByKey e.1 d = some el → (textNodesN el).length ≤ 1)
    (h3 : List.Pairwise (entriesDisjoint d) es) :
    ∀ e ∈ es, didWrite (applyEdits d es) e = false := by
  intro e he
  have hstable : decodeKeyPath e.1 (applyEdits d es) = decodeKeyPath e.1 d :=
    decodeKeyPath_applyEdits e.1 d es
  cases hd : decodeKeyPath e.1 d with
  | none =>
    rw [didWrite, getElementByKey_eq_decodeKeyPath, hstable, hd]
    rfl
  | some p =>
    rcases decodeGo_some_subtree _ d p hd with ⟨el0, hel0⟩
    rcases List.append_of_mem he with ⟨es1, es2, hsplit⟩
    subst hsplit
    rw [List.pairwise_append] at h3
    rcases h3 with ⟨_, h3c, h3x⟩
    rw [List.pairwise_cons] at h3c
    rcases h3c with ⟨h3e, _⟩
    have hinc1 : ∀ a ∈ es1, ∀ q, decodeKeyPath a.1 d = some q →
        pathsIncomparable q p = true := by
      intro a ha q hq
      exact h3x a ha e (List.mem_cons_self e es2) q p hq hd
    have hinc2 : ∀ b ∈ es2, ∀ q, decodeKeyPath b.1 d = some q →
        pathsIncomparable q p = true := by
      intro b hb q hq
      rw [pathsIncomparable_symm]
      exact h3e b hb p q hd hq
    have hdecomp : applyEdits d (es1 ++ e :: es2)
        = List.foldl applyOne (applyOne (List.foldl applyOne d es1) e) es2 := by
      rw [applyEdits, List.foldl_append, List.foldl_cons]
    have hs1e : eraseN (List.foldl applyOne d es1) = eraseN d := eraseN_applyEdits es1 d
    have hs1sub : subtreeAt (List.foldl applyOne d es1) p = some el0 := by
      rw [subtree_foldl_preserved d p es1 d rfl hinc1, hel0]
    have hs2 : applyOne (List.foldl applyOne d es1) e
        = modifyAt (List.foldl applyOne d es1) p (condWrite e.2) := by
      rw [applyOne]
      have hd2 : decodeKeyPath e.1 (List.foldl applyOne d es1) = some p := by
        rw [show List.foldl applyOne d es1 = applyEdits d es1 from rfl]
        rw [decodeKeyPath_applyEdits, hd]
      simp only [hd2]
    have hs2er : eraseN (applyOne (List.foldl applyOne d es1) e) = eraseN d := by
      rw [eraseN_applyOne, hs1e]
    have hs2sub : subtreeAt (applyOne (List.foldl applyOne d es1) e) p
        = some (condWrite e.2 el0) := by
      rw [hs2, subtreeAt_modifyAt_self (condWrite e.2) (condWrite_elemPreserving e.2) p]
      rw [hs1sub]
      rfl
    have hs3sub : subtreeAt (applyEdits d (es1 ++ e :: es2)) p
        = some (condWrite e.2 el0) := by
      rw [hdecomp, subtree_foldl_preserved d p es2 _ hs2er hinc2, hs2sub]
    have hget3 : getElementByKey e.1 (applyEdits d (es1 ++ e :: es2))
        = some (condWrite e.2 el0) := by
      rw [getElementByKey_eq_decodeKeyPath, hstable, hd]
      simpa using hs3sub
    simp only [didWrite, hget3]
    have hgetd : getElementByKey e.1 d = some el0 := by
      rw [getElementByKey_eq_decodeKeyPath, hd]
      simpa using hel0
    cases hc : (jsTrim (textContentN el0) != e.2) && (isEditingOf el0 != "true") with
    | false =>
      rw [condWrite_eq_of_false e.2 el0 hc, hc]
      simp
    | true =>
      rw [condWrite_eq_of_true e.2 el0 hc]
      cases hht : hasTextN el0 with
      | false =>
        rw [writeFirstN_eq_self e.2 el0 hht, hc, hht]
        simp
      | true =>
        have hne : textNodesN el0 ≠ [] := (hasTextN_iff el0).mp hht
        have hlen := h2 e he el0 hgetd
        have hsing : ∃ x, textNodesN el0 = [x] := by
          cases htn : textNodesN el0 with
          | nil => exact absurd htn hne
          | cons x xs =>
            rw [htn] at hlen
            cases xs with
            | nil => exact ⟨x, rfl⟩
            | cons y ys => simp at hlen
        rcases hsing with ⟨x, hx⟩
        have htn1 : textNodesN (writeFirstN e.2 el0) = [e.2] := by
          rw [textNodesN_writeFirstN, hx]
          rfl
        have htc : textContentN (writeFirstN e.2 el0) = e.2 := by
          rw [textContentN, textCharsN_eq_join, htn1]
          simp
        rw [htc, h1 e he]
        simp

/- Association list and save path lemmas. -/

theorem lookupA_setA_self {α : Type} (k : String) (v : α) :
    ∀ (m : List (String × α)), lookupA (setA m k v) k = some v := by
  intro m
  induction m with
  | nil => simp [setA, lookupA]
  | cons e r ih =>
    rw [setA]
    by_cases h : e.1 == k
    · rw [if_pos (by simpa using h), lookupA, if_pos (by simpa using h)]
    · rw [if_neg (by simpa using h), lookupA, if_neg (by simpa using h)]
      exact ih

theorem lookupA_setA_ne {α : Type} (k k2 : String) (v : α) (hne : k2 ≠ k) :
    ∀ (m : List (String × α)), lookupA (setA m k v) k2 = lookupA m k2 := by
  intro m
  induction m with
  | nil =>
    simp only [setA, lookupA]
    rw [if_neg (by simp; exact fun hh => hne hh.symm)]
  | cons e r ih =>
    rw [setA]
    by_cases h : e.1 == k
    · have hk : e.1 = k := by simpa using h
      rw [if_pos (by simpa using h), lookupA, lookupA]
      rw [if_neg (by simp [hk]; exact fun hh => hne hh.symm),
        if_neg (by simp [hk]; exact fun hh => hne hh.symm)]
    · rw [if_neg (by simpa using h), lookupA, lookupA]
      by_cases h2 : e.1 == k2
      · rw [if_pos (by simpa using h2), if_pos (by simpa using h2)]
      · rw [if_neg (by simpa using h2), if_neg (by simpa using h2)]
        exact ih

theorem setA_mem {α : Type} (k : String) (v : α) :
    ∀ (m : List (String × α)) (e : String × α), e ∈ setA m k v → e ∈ m ∨ e.2 = v := by
  intro m
  induction m with
  | nil =>
    intro e he
    simp [setA] at he
    right
    rw [he]
  | cons x r ih =>
    intro e he
    rw [setA] at he
    by_cases h : x.1 == k
    · rw [if_pos (by simpa using h)] at he
      rcases List.mem_cons.mp he with he | he
      · right; rw [he]
      · left; exact List.mem_cons_of_mem x he
    · rw [if_neg (by simpa using h)] at he
      rcases List.mem_cons.mp he with he | he
      · left; rw [he]; exact List.mem_cons_self x r
      · rcases ih e he with h2 | h2
        · left; exact List.mem_cons_of_mem x h2
        · right; exact h2

theorem saveBatch_not_mem (k : String) :
    ∀ (batch prev : List (String × String)), k ∉ batch.map Prod.fst →
    lookupA (saveBatch prev batch) k = lookupA prev k := by
  intro batch
  induction batch with
  | nil => intro prev _; rfl
  | cons e r ih =>
    intro prev hk
    rw [List.map_cons] at hk
    have hk1 : k ≠ e.1 := fun h => hk (h ▸ List.mem_cons_self e.1 (r.map Prod.fst))
    have hk2 : k ∉ r.map Prod.fst := fun h => hk (List.mem_cons_of_mem e.1 h)
    rw [saveBatch, List.foldl_cons]
    rw [show List.foldl
      (fun acc kv => if jsTrim kv.2 != "" then setA acc kv.1 (jsTrim kv.2) else acc)
      (if jsTrim e.2 != "" then setA prev e.1 (jsTrim e.2) else prev) r
      = saveBatch (if jsTrim e.2 != "" then setA prev e.1 (jsTrim e.2) else prev) r
      from rfl]
    rw [ih _ hk2]
    by_cases h : jsTrim e.2 != ""
    · rw [if_pos h, lookupA_setA_ne e.1 k (jsTrim e.2) hk1]
    · rw [if_neg h]

theorem saveBatch_mem (k t : String) :
    ∀ (batch prev : List (String × String)), (batch.map Prod.fst).Nodup →
    (k, t) ∈ batch → jsTrim t ≠ "" →
    lookupA (saveBatch prev batch) k = some (jsTrim t) := by
  intro batch
  induction batch with
  | nil => intro prev _ hmem; simp at hmem
  | cons e r ih =>
    intro prev hnd hmem ht
    rw [List.map_cons, List.nodup_cons] at hnd
    rw [saveBatch, List.foldl_cons]
    rw [show List.foldl
      (fun acc kv => if jsTrim kv.2 != "" then setA acc kv.1 (jsTrim kv.2) else acc)
      (if jsTrim e.2 != "" then setA prev e.1 (jsTrim e.2) else prev) r
      = saveBatch (if jsTrim e.2 != "" then setA prev e.1 (jsTrim e.2) else prev) r
      from rfl]
    rcases List.mem_cons.mp hmem with he | he
    · have he1 : e.1 = k := by rw [← he]
      have he2 : e.2 = t := by rw [← he]
      have hknot : k ∉ r.map Prod.fst := by rw [← he1]; exact hnd.1
      rw [saveBatch_not_mem k r _ hknot]
      rw [if_pos (by simp [he2, bne_iff_ne]; exact ht)]
      rw [he1, he2, lookupA_setA_self]
    · exact ih _ hnd.2 he ht

theorem saveBatch_values (e : String × String) :
    ∀ (batch prev : List (String × String)), e ∈ saveBatch prev batch →
    e ∈ prev ∨ ∃ t, e.2 = jsTrim t := by
  intro batch
  induction batch with
  | nil => intro prev he; left; exact he
  | cons x r ih =>
    intro prev he
    rw [saveBatch, List.foldl_cons] at he
    rw [show List.foldl
      (fun acc kv => if jsTrim kv.2 != "" then setA acc kv.1 (jsTrim kv.2) else acc)
      (if jsTrim x.2 != "" then setA prev x.1 (jsTrim x.2) else prev) r
      = saveBatch (if jsTrim x.2 != "" then setA prev x.1 (jsTrim x.2) else prev) r
      from rfl] at he
    rcases ih _ he with h2 | h2
    · by_cases hx : jsTrim x.2 != ""
      · rw [if_pos hx] at h2
        rcases setA_mem x.1 (jsTrim x.2) prev e h2 with h3 | h3
        · left; exact h3
        · right; exact ⟨x.2, h3⟩
      · rw [if_neg hx] at h2
        left
        exact h2
    · right; exact h2

/- Observer machine lemmas. -/

theorem obsRun_batches_ignored (s : ObsState) (h : s.applying = true) :
    ∀ (n : Nat), obsRun s (List.replicate n .batch) = s := by
  intro n
  induction n with
  | zero => rfl
  | succ m ih =>
    rw [List.replicate_succ, obsRun, List.foldl_cons]
    rw [show obsStep s .batch = s from by rw [obsStep, if_pos h]]
    exact ih

theorem obsStep_inv (s : ObsState)
    (h : s.running = if s.applying then 1 else 0) :
    ∀ (ev : ObsEvent),
    (obsStep s ev).running = if (obsStep s ev).applying then 1 else 0 := by
  intro ev
  cases ev with
  | batch =>
    rw [obsStep]
    by_cases ha : s.applying
    · rw [if_pos ha]; exact h
    · rw [if_neg ha]
      simp only [if_true]
      rw [h, if_neg ha]
  | passEnd =>
    rw [obsStep]
    by_cases ha : s.applying
    · rw [if_pos ha]
      simp only [if_false]
      rw [h, if_pos ha]
      rfl
    · rw [if_neg ha]; exact h

theorem obsRun_def (s : ObsState) (evs : List ObsEvent) :
    List.foldl obsStep s evs = obsRun s evs := rfl

/-- From an idle state, any storm of batches starts at most one pass. -/
theorem obsRun_idle_started :
    ∀ (m : Nat) (s : ObsState), s.applying = false →
    (obsRun s (List.replicate m .batch)).started ≤ s.started + 1 := by
  intro m
  cases m with
  | zero =>
    intro s _
    simp [obsRun]
  | succ m2 =>
    intro s ha
    rw [List.replicate_succ, obsRun, List.foldl_cons]
    have hstep : obsStep s .batch
        = { applying := true, running := s.running + 1, started := s.started + 1 } := by
      rw [obsStep, if_neg (by simp [ha])]
    rw [hstep, obsRun_def]
    rw [obsRun_batches_ignored _ rfl m2]

theorem obsRun_inv (evs : List ObsEvent) :
    ∀ (s : ObsState), s.running = (if s.applying then 1 else 0) →
    (obsRun s evs).running = (if (obsRun s evs).applying then 1 else 0) := by
  induction evs with
  | nil => intro s h; exact h
  | cons ev r ih =>
    intro s h
    rw [obsRun, List.foldl_cons]
    exact ih (obsStep s ev) (obsStep_inv s h ev)

/- Claim theorems. -/

/-- Claim C1 (code bug evaluation): the claim says that toggling the
capability off revokes editability and clears the processed marker, and that
toggling it back on re-initializes the element.  The code instead assigns the
string "false" to dataset.editReady, which is truthy, so the enable path's
processed guard skips the element forever: after off-then-on the eligible
SPAN is still not contenteditable and still carries the marker. -/
theorem claim1_toggle_reenable_fails :
    (subtreeAt (enableN false c1Doc) [0, 0]).map contentEditableOf = some "true"
    ∧ (subtreeAt (setEditingStateStep false (enableN false c1Doc)) [0, 0]).map
        contentEditableOf = some "false"
    ∧ (subtreeAt (setEditingStateStep false (enableN false c1Doc)) [0, 0]).map
        editReadyOf = some "false"
    ∧ (subtreeAt (setEditingStateStep true (setEditingStateStep false
        (enableN false c1Doc))) [0, 0]).map contentEditableOf = some "false" :=
  ⟨rfl, rfl, rfl, rfl⟩

/-- Claim C2 counterexample: decoding the key whose single segment records
tag SPAN at index 0 against a body whose child 0 is a DIV returns that DIV —
an element whose tag differs from the tag recorded in the key segment, which
the claim says can never happen. -/
theorem claim2_counterexample :
    (getElementByKey "SPAN:0" c2Doc).map tagOf = some "DIV"
    ∧ ("DIV" : String) ≠ "SPAN" :=
  ⟨rfl, by decide⟩

/-- Claim C2 (amended): the decoder is pure positional descent on the parsed
index of each segment — the recorded tags are ignored entirely, so it returns
the element occupying the index path (whatever its tags) or null, and two
keys recording the same indices decode identically; it never falls back to
tag-name matching. -/
theorem claim2_positional_descent :
    (∀ (key : String) (d : Node),
      getElementByKey key d =
        match parseKeyIndices key with
        | none => none
        | some is => descendInts d is)
    ∧ (∀ (k1 k2 : String) (d : Node), parseKeyIndices k1 = parseKeyIndices k2 →
        getElementByKey k1 d = getElementByKey k2 d) := by
  constructor
  · intro key d
    rw [getElementByKey, getGo_eq_descend, parseKeyIndices]
  · intro k1 k2 d h
    rw [getElementByKey, getGo_eq_descend, getElementByKey, getGo_eq_descend]
    rw [show (splitOnChar '>' k1.data).mapM segIdx = parseKeyIndices k1 from rfl]
    rw [show (splitOnChar '>' k2.data).mapM segIdx = parseKeyIndices k2 from rfl]
    rw [h]

/-- Claim C2 witness: the amended statement applied to the concrete keys
SPAN:0 and DIV:0, which record the same index. -/
theorem claim2_witness :
    getElementByKey "SPAN:0" c2Doc = getElementByKey "DIV:0" c2Doc :=
  claim2_positional_descent.2 "SPAN:0" "DIV:0" c2Doc rfl

/-- Claim C3: decoding the key produced by encoding the element at a nonempty
child-index path returns that element, provided the DOM is unchanged and the
tag names along the path contain neither the separator nor the colon (true of
every real tagName). -/
theorem claim3_roundtrip (body el : Node) (p : List Nat) (key : String)
    (hne : p ≠ []) (hsub : subtreeAt body p = some el)
    (hkey : getKeyOfPath body p = some key) (htags : pathTagsOk body p = true) :
    getElementByKey key body = some el := by
  rw [getKeyOfPath] at hkey
  cases hkf : keyForPath body p with
  | none => rw [hkf] at hkey; cases hkey
  | some segs =>
    rw [hkf] at hkey
    simp only [Option.map_some', Option.some.injEq] at hkey
    subst hkey
    rw [getElementByKey]
    rw [show (String.mk (joinSegs segs)).data = joinSegs segs from rfl]
    have hsegs_ne : segs ≠ [] := by
      cases p with
      | nil => exact absurd rfl hne
      | cons i p2 =>
        rw [keyForPath] at hkf
        cases hget : (elemChildrenN body)[i]? with
        | none =>
          simp only [hget] at hkf
          exact Option.noConfusion hkf
        | some c =>
          simp only [hget] at hkf
          cases h2 : keyForPath c p2 with
          | none =>
            rw [h2] at hkf
            exact Option.noConfusion hkf
          | some s2 =>
            rw [h2] at hkf
            simp only [Option.map_some', Option.some.injEq] at hkf
            rw [← hkf]
            simp
    rw [splitOnChar_joinSegs segs hsegs_ne (keyForPath_no_sep p body segs hkf htags)]
    exact getGo_keyForPath p body el segs hsub hkf htags

/-- Claim C3 witness: the round trip at the SPAN reached by the path 0, 0 of
a concrete document (with a text-node sibling shifting nothing, since the
children collection holds elements only). -/
theorem claim3_witness :
    getElementByKey "DIV:0>SPAN:0" w3Doc
      = some (Node.elem (mkElem "SPAN") (nl [.text "x"])) :=
  claim3_roundtrip w3Doc (Node.elem (mkElem "SPAN") (nl [.text "x"])) [0, 0]
    "DIV:0>SPAN:0" (by decide) rfl rfl rfl

/-- Claim C4: one reconciliation pass never creates or removes elements and
never touches attributes — it changes text node values only (the erasure of
the document is invariant); and an entry overwrites its element only when the
key resolves, the element's trimmed textContent differs from the stored text,
and the is-editing marker is not "true" — in particular a mid-edit element is
never overwritten by its entry, however stale the stored text. -/
theorem claim4_reconciler_safety :
    (∀ (d : Node) (es : List (String × String)), eraseN (applyEdits d es) = eraseN d)
    ∧ (∀ (d : Node) (e : String × String), getElementByKey e.1 d = none →
        applyOne d e = d)
    ∧ (∀ (d : Node) (e : String × String) (el : Node), getElementByKey e.1 d = some el →
        jsTrim (textContentN el) = e.2 → applyOne d e = d)
    ∧ (∀ (d : Node) (e : String × String) (el : Node), getElementByKey e.1 d = some el →
        isEditingOf el = "true" → applyOne d e = d) := by
  refine ⟨fun d es => eraseN_applyEdits es d, ?_, ?_, ?_⟩
  · intro d e h
    apply applyOne_eq_self
    simp only [didWrite, h]
  · intro d e el h h2
    apply applyOne_eq_self
    simp only [didWrite, h]
    simp [h2]
  · intro d e el h h2
    apply applyOne_eq_self
    simp only [didWrite, h]
    simp [h2]

/-- Claim C4 witness: a mid-edit SPAN is not overwritten, and an element whose
trimmed text already equals the stored text is not rewritten. -/
theorem claim4_witness :
    applyOne w4Doc ("SPAN:0", "new") = w4Doc
    ∧ applyOne c2Doc ("DIV:0", "x") = c2Doc :=
  ⟨claim4_reconciler_safety.2.2.2 w4Doc ("SPAN:0", "new")
      (Node.elem { mkElem "SPAN" with isEditing := "true" } (nl [.text "old"])) rfl rfl,
    claim4_reconciler_safety.2.2.1 c2Doc ("DIV:0", "x")
      (Node.elem (mkElem "DIV") (nl [.text "x"])) rfl rfl⟩

/-- Claim C5 counterexample: the reconciler writes only the first text node
but compares the whole trimmed textContent, so on a SPAN holding the text
nodes "Hello" and " World" with stored text "Hi", the second run still finds
"Hi World" different from "Hi" and writes again — the second run performs one
write, not zero. -/
theorem claim5_counterexample :
    passWrites (applyEdits c5Doc c5Es) c5Es = 1 ∧ (1 : Nat) ≠ 0 :=
  ⟨rfl, by decide⟩

/-- Claim C5 (amended): the second run writes to no text node, provided every
stored text equals its own trim, every key resolves to an element holding at
most one text node, and entries resolve to pairwise disjoint subtrees. -/
theorem claim5_second_run_no_writes (d : Node) (es : List (String × String))
    (h1 : ∀ e ∈ es, jsTrim e.2 = e.2)
    (h2 : ∀ e ∈ es, ∀ el, getElementByKey e.1 d = some el →
      (textNodesN el).length ≤ 1)
    (h3 : List.Pairwise (entriesDisjoint d) es) :
    passWrites (applyEdits d es) es = 0 :=
  passWrites_eq_zero (applyEdits d es) es (didWrite_after_pass d es h1 h2 h3)

/-- Claim C5 witness: the amended statement at a single-entry edit set over a
single-text-node SPAN. -/
theorem claim5_witness : passWrites (applyEdits w5Doc w5Es) w5Es = 0 :=
  claim5_second_run_no_writes w5Doc w5Es
    (by
      intro e he
      simp only [w5Es, List.mem_singleton] at he
      subst he
      rfl)
    (by
      intro e he el hel
      simp only [w5Es, List.mem_singleton] at he
      subst he
      rw [show getElementByKey "SPAN:0" w5Doc
        = some (Node.elem (mkElem "SPAN") (nl [.text "B"])) from rfl] at hel
      cases hel
      decide)
    (by simp [w5Es])

/-- Claim C6: when the observed path differs from the last known value, the
navigation step switches the current PAGE_KEY to the new value and clears the
new page's pending edit set, so a getEditedElements request returns the empty
mapping whatever the document looks like. -/
theorem claim6_navigation_reset (st : PageState) (newPath : String)
    (h : newPath ≠ st.lastPath) :
    (navStep st newPath).currentPageKey = newPath
    ∧ lookupA (navStep st newPath).editedMap newPath = some []
    ∧ ∀ doc, getEditedElementsResp (navStep st newPath) doc = [] := by
  have hbne : (newPath != st.lastPath) = true := by simp [bne_iff_ne, h]
  refine ⟨?_, ?_, ?_⟩
  · rw [navStep, if_pos hbne]
  · rw [navStep, if_pos hbne]
    exact lookupA_setA_self newPath [] st.editedMap
  · intro doc
    rw [getEditedElementsResp]
    rw [show (navStep st newPath).currentPageKey = newPath from by
      rw [navStep, if_pos hbne]]
    rw [show (navStep st newPath).editedMap = setA st.editedMap newPath [] from by
      rw [navStep, if_pos hbne]]
    rw [lookupA_setA_self newPath [] st.editedMap]
    rfl

/-- Claim C6 witness: the navigation reset at a concrete state holding one
pending edit on page "a", switching to page "b". -/
theorem claim6_witness :
    (navStep w6St "b").currentPageKey = "b"
    ∧ getEditedElementsResp (navStep w6St "b") c2Doc = [] :=
  ⟨(claim6_navigation_reset w6St "b" (by decide)).1,
    (claim6_navigation_reset w6St "b" (by decide)).2.2 c2Doc⟩

/-- Claim C7 counterexample: the claim says a key with a non-numeric index
segment decodes to NotFound, but parseInt accepts any digit prefix: the
segment SPAN:0oops has the non-numeric index "0oops", yet decoding resolves
child 0 and returns the SPAN. -/
theorem claim7_counterexample :
    (getElementByKey "SPAN:0oops" c7Doc).map tagOf = some "SPAN"
    ∧ ("0oops".data.all Char.isDigit) = false :=
  ⟨rfl, by decide⟩

/-- Claim C7 (amended): decoding returns null whenever some segment's index
parses to NaN (no leading integer after optional whitespace and sign), and
whenever pure descent by the parsed indices hits a negative or out-of-range
index or a missing element child; and reconciliation treats an unresolvable
key as a skip — the remaining entries of the pass are processed exactly as if
the entry were absent. -/
theorem claim7_malformed_keys :
    (∀ (key : String) (d : Node), parseKeyIndices key = none →
      getElementByKey key d = none)
    ∧ (∀ (key : String) (d : Node) (is : List Int), parseKeyIndices key = some is →
        descendInts d is = none → getElementByKey key d = none)
    ∧ (∀ (d : Node) (k t : String) (es1 es2 : List (String × String)),
        getElementByKey k d = none →
        applyEdits d (es1 ++ (k, t) :: es2) = applyEdits d (es1 ++ es2)) := by
  refine ⟨?_, ?_, ?_⟩
  · intro key d h
    rw [getElementByKey, getGo_eq_descend]
    rw [parseKeyIndices] at h
    simp only [h]
  · intro key d is h hdesc
    rw [getElementByKey, getGo_eq_descend]
    rw [parseKeyIndices] at h
    simp only [h]
    exact hdesc
  · intro d k t es1 es2 h
    rw [applyEdits, applyEdits, List.foldl_append, List.foldl_append, List.foldl_cons]
    have hnone : getElementByKey k (List.foldl applyOne d es1) = none := by
      rw [show List.foldl applyOne d es1 = applyEdits d es1 from rfl]
      rw [getElementByKey_eq_decodeKeyPath, decodeKeyPath_applyEdits]
      cases hdk : decodeKeyPath k d with
      | none => rfl
      | some p =>
        rcases decodeGo_some_subtree _ d p hdk with ⟨el, hel⟩
        rw [getElementByKey_eq_decodeKeyPath, hdk] at h
        simp only [Option.some_bind] at h
        rw [h] at hel
        exact Option.noConfusion hel
    rw [applyOne_eq_self _ _ (by simp only [didWrite, hnone])]

/-- Claim C7 witness: a NaN index, an out-of-range index, and a skipped entry
whose pass result matches the pass without it. -/
theorem claim7_witness :
    getElementByKey "SPAN:x" c7Doc = none
    ∧ getElementByKey "SPAN:5" c7Doc = none
    ∧ applyEdits c7Doc [("BAD", "t"), ("SPAN:0", "y")]
        = applyEdits c7Doc [("SPAN:0", "y")] :=
  ⟨claim7_malformed_keys.1 "SPAN:x" c7Doc rfl,
    claim7_malformed_keys.2.1 "SPAN:5" c7Doc [5] rfl rfl,
    claim7_malformed_keys.2.2 c7Doc "BAD" "t" [] [("SPAN:0", "y")] rfl⟩

/-- Claim C8: the popup save path overwrites only the provided keys — every
batch key with nonempty trimmed text maps to that trimmed text afterwards,
and every key outside the batch keeps its previous stored value. -/
theorem claim8_save_frame (prev batch : List (String × String))
    (hnd : (batch.map Prod.fst).Nodup) :
    (∀ e ∈ batch, jsTrim e.2 ≠ "" →
      lookupA (saveBatch prev batch) e.1 = some (jsTrim e.2))
    ∧ (∀ k, k ∉ batch.map Prod.fst →
        lookupA (saveBatch prev batch) k = lookupA prev k) := by
  constructor
  · intro e he ht
    exact saveBatch_mem e.1 e.2 batch prev hnd he ht
  · intro k hk
    exact saveBatch_not_mem k batch prev hk

/-- Claim C8 witness: a concrete batch overwrites its key and leaves an
untouched key's stored value unchanged. -/
theorem claim8_witness :
    lookupA (saveBatch [("x", "old"), ("y", "v")] [("x", " new "), ("z", " ")]) "x"
      = some "new"
    ∧ lookupA (saveBatch [("x", "old"), ("y", "v")] [("x", " new "), ("z", " ")]) "y"
      = lookupA [("x", "old"), ("y", "v")] "y" :=
  ⟨(claim8_save_frame [("x", "old"), ("y", "v")] [("x", " new "), ("z", " ")]
      (by decide)).1 ("x", " new ") (by decide) (by decide),
    (claim8_save_frame [("x", "old"), ("y", "v")] [("x", " new "), ("z", " ")]
      (by decide)).2 "y" (by decide)⟩

/-- Claim C9: the mutation watcher's reentrancy guard — batches arriving
while a pass is in flight are ignored outright (the state is unchanged, so
nothing is queued), at most one pass is ever in flight, and a storm of
batches during a pass followed by its completion starts at most one further
pass. -/
theorem claim9_reentrancy_guard :
    (∀ (s : ObsState), s.applying = true →
      ∀ (n : Nat), obsRun s (List.replicate n .batch) = s)
    ∧ (∀ (evs : List ObsEvent) (s : ObsState),
        s.running = (if s.applying then 1 else 0) → (obsRun s evs).running ≤ 1)
    ∧ (∀ (s : ObsState) (n m : Nat), s.applying = true →
        (obsRun s (List.replicate n .batch ++ .passEnd :: List.replicate m .batch)).started
          ≤ s.started + 1) := by
  refine ⟨obsRun_batches_ignored, ?_, ?_⟩
  · intro evs s h
    rw [obsRun_inv evs s h]
    by_cases ha : (obsRun s evs).applying <;> simp [ha]
  · intro s n m h
    rw [obsRun, List.foldl_append, obsRun_def s (List.replicate n ObsEvent.batch)]
    rw [obsRun_batches_ignored s h n, List.foldl_cons, obsRun_def]
    have hap : (obsStep s .passEnd).applying = false := by
      rw [obsStep, if_pos h]
    have hst : (obsStep s .passEnd).started = s.started := by
      rw [obsStep, if_pos h]
    rw [← hst]
    exact obsRun_idle_started m (obsStep s .passEnd) hap

/-- Claim C9 witness: the guard at concrete states — three batches during a
pass change nothing, the invariant bounds in-flight passes from a concrete
start, and a storm of two batches, completion, then two batches starts one
further pass. -/
theorem claim9_witness :
    obsRun { applying := true, running := 1, started := 4 }
      (List.replicate 3 .batch) = { applying := true, running := 1, started := 4 }
    ∧ (obsRun { applying := false, running := 0, started := 0 }
        [.batch, .batch, .passEnd, .batch]).running ≤ 1
    ∧ (obsRun { applying := true, running := 1, started := 4 }
        (List.replicate 2 .batch ++ .passEnd :: List.replicate 2 .batch)).started ≤ 5 :=
  ⟨claim9_reentrancy_guard.1 { applying := true, running := 1, started := 4 } rfl 3,
    claim9_reentrancy_guard.2.1 [.batch, .batch, .passEnd, .batch]
      { applying := false, running := 0, started := 0 } rfl,
    claim9_reentrancy_guard.2.2 { applying := true, running := 1, started := 4 } 2 2 rfl⟩

/-- Claim C10: both persistence paths store only trimmed text — if every
value already stored equals its own trim, then after the per-keystroke
saveEdit update and after the popup saveBatch merge every stored value still
equals its own trim (trim is idempotent, so newly written values are their
own trim). -/
theorem claim10_stored_values_trimmed (edits prev batch : List (String × String))
    (k : String) (el : Node) :
    ((∀ e ∈ edits, jsTrim e.2 = e.2) →
      ∀ e ∈ saveEditUpd edits k el, jsTrim e.2 = e.2)
    ∧ ((∀ e ∈ prev, jsTrim e.2 = e.2) →
        ∀ e ∈ saveBatch prev batch, jsTrim e.2 = e.2) := by
  constructor
  · intro h e he
    rcases setA_mem k (jsTrim (textContentN el)) edits e he with h2 | h2
    · exact h e h2
    · rw [h2]
      exact jsTrim_idem (textContentN el)
  · intro h e he
    rcases saveBatch_values e batch prev he with h2 | h2
    · exact h e h2
    · rcases h2 with ⟨t, ht⟩
      rw [ht]
      exact jsTrim_idem t

/-- Claim C10 witness: the invariant at a concrete store, keystroke update and
batch save. -/
theorem claim10_witness :
    (∀ e ∈ saveEditUpd [("k", "v")] "SPAN:0"
      (Node.elem (mkElem "SPAN") (nl [.text " hi "])), jsTrim e.2 = e.2)
    ∧ (∀ e ∈ saveBatch [("k", "v")] [("x", " a b ")], jsTrim e.2 = e.2) :=
  ⟨(claim10_stored_values_trimmed [("k", "v")] [("k", "v")] [("x", " a b ")] "SPAN:0"
      (Node.elem (mkElem "SPAN") (nl [.text " hi "]))).1
      (by intro e he; simp at he; rw [he]; rfl),
    (claim10_stored_values_trimmed [("k", "v")] [("k", "v")] [("x", " a b ")] "SPAN:0"
      (Node.elem (mkElem "SPAN") (nl [.text " hi "]))).2
      (by intro e he; simp at he; rw [he]; rfl)⟩

end CachedText
